import Mathlib

/-!
# Verification of the laj3 directory-synchronization tool

A shallow embedding in Lean 4 of the core of `src/main.rs`:

* manifests ("dictionaries"): JSON objects mapping relative paths to
  content fingerprints, modelled as association lists in the map's
  iteration order;
* `diff_dict`: the two-pass manifest differ;
* `add_to_dict`: the directory-tree manifest builder, over an explicit
  filesystem-tree model;
* `compress_files`: the zip archiver, with the external zip library's
  entry container modelled as a list of named entries;
* `read_dict` / `handle_connection`: the per-connection server handler;
* `ThreadPool` / `Worker`: the worker pool, modelled as a labelled
  transition system over interleavings.

Rust panics (from `unwrap` and from out-of-range string slicing) are made
explicit: a function that can panic returns an `Option`, with `none`
standing for the panic.  External library boundaries (serde JSON parsing,
the zip encoder's start/finish outcomes, socket reads/writes) are passed
in as explicit environment data, mirroring the spec's treatment of them
as external collaborators.
-/

namespace Laj3

/-! ## Manifests (`serde_json::Map<String, Value>`)

A manifest is a JSON object mapping a relative path to a fingerprint.
We model it as an association list `List (String × String)` listed in the
map's iteration order; the values (JSON `Value`s holding hex digests) are
modelled as strings. -/

/-- A manifest / dictionary: association list from path to fingerprint,
in the map's iteration order. -/
abbrev Dict := List (String × String)

/-- `Map::contains_key`. -/
def containsKey (m : Dict) (k : String) : Bool :=
  (m.find? (fun p => p.1 == k)).isSome

/-- `Map::get` (first binding of the key, as in a real map where keys are
unique). -/
def getVal (m : Dict) (k : String) : Option String :=
  (m.find? (fun p => p.1 == k)).map (·.2)

/-- Keys are unique within one manifest (the `serde_json::Map` invariant;
the spec: "within one manifest, paths are unique"). -/
def nodupKeys (m : Dict) : Prop := (m.map Prod.fst).Nodup

/-! ## `diff_dict` (src/main.rs lines 403–419)

```rust
fn diff_dict(dict1: &Map<String, Value>, dict2: &Map<String, Value>) -> Vec<String> {
    let mut diffs: Vec<String> = Vec::new();
    for (k, v) in dict1 {
        if !dict2.contains_key(k) || !v.eq(dict2.get(k).unwrap()) {
            diffs.push(k.clone());
        }
    }
    for (k, v) in dict2 {
        if !dict1.contains_key(k) {
            diffs.push(k.clone());
        }
    }
    diffs
}
```
-/

/-- The differ: first pass pushes every `dict1` key absent from `dict2`
or bound to a different value, second pass pushes every `dict2` key
absent from `dict1`. -/
def diff_dict (dict1 dict2 : Dict) : List String :=
  let diffs : List String := dict1.foldl
    (fun diffs kv =>
      if !containsKey dict2 kv.1 || getVal dict2 kv.1 != some kv.2 then
        diffs ++ [kv.1]
      else diffs) []
  dict2.foldl
    (fun diffs kv =>
      if !containsKey dict1 kv.1 then diffs ++ [kv.1] else diffs) diffs

/-- The first pass of the differ, as a filter: client entries absent
from the server or carrying a different fingerprint. -/
def clientMismatches (dict1 dict2 : Dict) : List String :=
  (dict1.filter
    (fun kv => !containsKey dict2 kv.1 || getVal dict2 kv.1 != some kv.2)).map Prod.fst

/-- The second pass of the differ, as a filter: server entries whose path
is absent from the client. -/
def serverOnly (dict1 dict2 : Dict) : List String :=
  (dict2.filter (fun kv => !containsKey dict1 kv.1)).map Prod.fst

theorem foldl_push {α : Type} (p : α → Bool) (f : α → String) :
    ∀ (l : List α) (acc : List String),
      l.foldl (fun acc x => if p x then acc ++ [f x] else acc) acc
        = acc ++ (l.filter p).map f := by
  intro l
  induction l with
  | nil => intro acc; simp
  | cons x xs ih =>
    intro acc
    by_cases h : p x = true
    · simp [List.foldl_cons, h, ih, List.filter_cons]
    · simp only [Bool.not_eq_true] at h
      simp [List.foldl_cons, h, ih, List.filter_cons]

/-- The two passes of `diff_dict`, made explicit. -/
theorem diff_dict_eq (dict1 dict2 : Dict) :
    diff_dict dict1 dict2 = clientMismatches dict1 dict2 ++ serverOnly dict1 dict2 := by
  unfold diff_dict clientMismatches serverOnly
  rw [foldl_push, foldl_push]
  simp

theorem containsKey_iff {m : Dict} {k : String} :
    containsKey m k = true ↔ ∃ v, (k, v) ∈ m := by
  unfold containsKey
  rw [List.find?_isSome]
  constructor
  · rintro ⟨⟨k', v⟩, hmem, hp⟩
    simp only [beq_iff_eq] at hp
    exact ⟨v, by simpa [hp] using hmem⟩
  · rintro ⟨v, hv⟩
    exact ⟨(k, v), hv, by simp⟩

theorem getVal_isSome_iff {m : Dict} {k : String} :
    (getVal m k).isSome = true ↔ containsKey m k = true := by
  simp [getVal, containsKey]

/-- With unique keys, two bindings of the same key carry the same value. -/
theorem nodupKeys_val_eq {m : Dict} (hm : nodupKeys m) {k v v' : String}
    (h1 : (k, v) ∈ m) (h2 : (k, v') ∈ m) : v = v' := by
  induction m with
  | nil => cases h1
  | cons p rest ih =>
    rw [nodupKeys, List.map_cons, List.nodup_cons] at hm
    rcases List.mem_cons.mp h1 with e1 | e1 <;> rcases List.mem_cons.mp h2 with e2 | e2
    · rw [← e1] at e2
      exact (Prod.mk.injEq _ _ _ _ ▸ e2).2.symm
    · exact absurd (List.mem_map.mpr ⟨(k, v'), e2, by rw [← e1]⟩) hm.1
    · exact absurd (List.mem_map.mpr ⟨(k, v), e1, by rw [← e2]⟩) hm.1
    · exact ih hm.2 e1 e2

theorem getVal_eq_some_iff {m : Dict} (hm : nodupKeys m) {k v : String} :
    getVal m k = some v ↔ (k, v) ∈ m := by
  unfold getVal
  constructor
  · intro h
    rcases Option.map_eq_some'.mp h with ⟨⟨k', v'⟩, hf, hv⟩
    have hmem := List.mem_of_find?_eq_some hf
    have hp := List.find?_some hf
    simp only [beq_iff_eq] at hp
    simp only at hv
    rw [hp] at hmem
    rw [hv] at hmem
    exact hmem
  · intro hmem
    have hs : (m.find? (fun p => p.1 == k)).isSome :=
      List.find?_isSome.mpr ⟨(k, v), hmem, by simp⟩
    rcases Option.isSome_iff_exists.mp hs with ⟨⟨k', v'⟩, hf⟩
    have hp := List.find?_some hf
    simp only [beq_iff_eq] at hp
    have hmem' := List.mem_of_find?_eq_some hf
    rw [hp] at hmem'
    rw [hf]
    simp only [Option.map_some']
    exact congrArg some (nodupKeys_val_eq hm hmem' hmem)

theorem mem_clientMismatches {d1 d2 : Dict} {k : String} :
    k ∈ clientMismatches d1 d2 ↔ ∃ v, (k, v) ∈ d1 ∧ getVal d2 k ≠ some v := by
  unfold clientMismatches
  rw [List.mem_map]
  constructor
  · rintro ⟨⟨k', v⟩, hmem, hk⟩
    have hk' : k' = k := hk
    subst hk'
    rcases List.mem_filter.mp hmem with ⟨hin, hcond⟩
    refine ⟨v, hin, ?_⟩
    simp only [Bool.or_eq_true, Bool.not_eq_true', bne_iff_ne, ne_eq] at hcond
    rcases hcond with hc | hc
    · intro hsome
      have hck : containsKey d2 k' = true := by
        rw [← getVal_isSome_iff, hsome]; rfl
      rw [hck] at hc; cases hc
    · exact hc
  · rintro ⟨v, hin, hne⟩
    refine ⟨(k, v), List.mem_filter.mpr ⟨hin, ?_⟩, rfl⟩
    simp only [Bool.or_eq_true, Bool.not_eq_true', bne_iff_ne, ne_eq]
    by_cases hc : containsKey d2 k = true
    · right; exact hne
    · left; exact Bool.eq_false_iff.mpr hc

theorem mem_serverOnly {d1 d2 : Dict} {k : String} :
    k ∈ serverOnly d1 d2 ↔ (∃ v, (k, v) ∈ d2) ∧ ¬∃ v, (k, v) ∈ d1 := by
  unfold serverOnly
  rw [List.mem_map]
  constructor
  · rintro ⟨⟨k', v⟩, hmem, hk⟩
    have hk' : k' = k := hk
    subst hk'
    rcases List.mem_filter.mp hmem with ⟨hin, hcond⟩
    simp only [Bool.not_eq_true'] at hcond
    refine ⟨⟨v, hin⟩, fun h => ?_⟩
    rcases h with ⟨v', hv'⟩
    rw [containsKey_iff.mpr ⟨v', hv'⟩] at hcond
    cases hcond
  · rintro ⟨⟨v, hin⟩, habs⟩
    refine ⟨(k, v), List.mem_filter.mpr ⟨hin, ?_⟩, rfl⟩
    simp only [Bool.not_eq_true']
    by_cases hc : containsKey d1 k = true
    · exact absurd (containsKey_iff.mp hc) habs
    · exact Bool.eq_false_iff.mpr hc

/-- C1: `diff_dict` returns exactly the client paths that are absent from
the server manifest or present with a different fingerprint (in client
iteration order), followed by the server paths absent from the client
manifest (in server iteration order), with no path appearing twice.
Hypotheses: each manifest has unique paths (the `serde_json::Map`
invariant, stated in the spec's data model). -/
theorem diff_dict_correct (dict1 dict2 : Dict)
    (h1 : nodupKeys dict1) (h2 : nodupKeys dict2) :
    diff_dict dict1 dict2 = clientMismatches dict1 dict2 ++ serverOnly dict1 dict2
    ∧ (∀ k, k ∈ diff_dict dict1 dict2 ↔
        ((∃ v, (k, v) ∈ dict1 ∧ getVal dict2 k ≠ some v)
          ∨ ((∃ v, (k, v) ∈ dict2) ∧ ¬∃ v, (k, v) ∈ dict1)))
    ∧ (diff_dict dict1 dict2).Nodup := by
  refine ⟨diff_dict_eq dict1 dict2, ?_, ?_⟩
  · intro k
    rw [diff_dict_eq, List.mem_append, mem_clientMismatches, mem_serverOnly]
  · rw [diff_dict_eq]
    have hsub1 : (clientMismatches dict1 dict2).Sublist (dict1.map Prod.fst) :=
      List.Sublist.map Prod.fst (List.filter_sublist dict1)
    have hsub2 : (serverOnly dict1 dict2).Sublist (dict2.map Prod.fst) :=
      List.Sublist.map Prod.fst (List.filter_sublist dict2)
    refine List.Nodup.append (hsub1.nodup h1) (hsub2.nodup h2) ?_
    intro k hk1 hk2
    rcases List.mem_map.mp (hsub1.subset hk1) with ⟨⟨k1, v1⟩, hmem1, hk1'⟩
    have hk1'' : k1 = k := hk1'
    subst hk1''
    rcases mem_serverOnly.mp hk2 with ⟨_, habs⟩
    exact habs ⟨v1, hmem1⟩

/-- Witness for `diff_dict_correct` at concrete manifests. -/
theorem diff_dict_correct_witness :
    diff_dict [("a.txt", "h1")] [("a.txt", "h2"), ("b.txt", "h3")]
        = clientMismatches [("a.txt", "h1")] [("a.txt", "h2"), ("b.txt", "h3")]
          ++ serverOnly [("a.txt", "h1")] [("a.txt", "h2"), ("b.txt", "h3")]
    ∧ (∀ k, k ∈ diff_dict [("a.txt", "h1")] [("a.txt", "h2"), ("b.txt", "h3")] ↔
        ((∃ v, (k, v) ∈ [("a.txt", "h1")]
            ∧ getVal [("a.txt", "h2"), ("b.txt", "h3")] k ≠ some v)
          ∨ ((∃ v, (k, v) ∈ [("a.txt", "h2"), ("b.txt", "h3")])
              ∧ ¬∃ v, (k, v) ∈ [("a.txt", "h1")])))
    ∧ (diff_dict [("a.txt", "h1")] [("a.txt", "h2"), ("b.txt", "h3")]).Nodup :=
  diff_dict_correct [("a.txt", "h1")] [("a.txt", "h2"), ("b.txt", "h3")]
    (by simp [nodupKeys]) (by simp [nodupKeys])

/-! ## Filesystem model and `add_to_dict` (src/main.rs lines 127–166)

```rust
fn add_to_dict(path: &Path, recursive: bool, level: i8) -> HashMap<String, String>{
    let mut dictionary: HashMap<String, String> = HashMap::new();
    if path.is_dir() {
        if recursive || level == 0 {
            for entry in read_dir(path).unwrap() {
                match entry {
                    Ok(v) => {
                        let sub_dict = add_to_dict(&v.path(), recursive, level+1);
                        dictionary.extend(sub_dict);
                    },
                    Err(e) => eprintln!(...)
                }
            }
        }
    } else {
        match hash_file(path) {
            Ok(hash) => {
                let fixed_path = &String::from(path.to_string_lossy())[2..];
                dictionary.insert(String::from(fixed_path), hash);
            },
            Err(e) => eprintln!(...)
        }
    }
    dictionary
}
```

The filesystem is modelled as an explicit tree.  A node that is not a
directory (the `else` branch: regular files, but also nonexistent or
special paths) is `FS.file path hashResult`, where `hashResult` is the
outcome of `hash_file` (`none` = open failure or not-a-file error, which
the builder skips with a diagnostic).  A directory node carries `readOk`,
the outcome of `read_dir` (`false` makes `read_dir(path).unwrap()` a
panic), and its entry list, where a `none` entry is an `Err` yielded by
the iterator (skipped with a diagnostic).  Paths are carried by each node
exactly as `path.to_string_lossy()` would render them.  The Rust byte
slicing `[2..]` is modelled on characters: it panics when the string is
shorter than two (the character-boundary corner of multi-byte UTF-8 is
outside the model).  A panic is `none`; `HashMap` is modelled as an
association list with `insert`/`extend` overwrite semantics. -/

inductive FS where
  | file (path : String) (hashResult : Option String)
  | dir (path : String) (readOk : Bool) (entries : List (Option FS))
deriving Repr

/-- `HashMap::insert` on the association-list model: the new binding
replaces any previous binding of the key. -/
def hmInsert (m : Dict) (k v : String) : Dict :=
  (m.filter (fun p => p.1 != k)) ++ [(k, v)]

/-- `HashMap::extend`: insert every binding of `sub` into `m`. -/
def hmExtend (m sub : Dict) : Dict :=
  sub.foldl (fun acc kv => hmInsert acc kv.1 kv.2) m

mutual

/-- The manifest builder.  `none` is a Rust panic: `read_dir(..).unwrap()`
on an unreadable directory that the scan enters, or the `[2..]` slice of a
stored path shorter than two characters. -/
def add_to_dict : FS → Bool → Nat → Option Dict
  | .file p hr, _, _ =>
    match hr with
    | some h => if p.length < 2 then none else some [(p.drop 2, h)]
    | none => some []
  | .dir _ readOk children, recursive, level =>
    if recursive || level == 0 then
      if readOk then add_children [] children recursive (level + 1)
      else none
    else some []

/-- The `for entry in read_dir(path)` loop, with `dictionary` as the
accumulator. -/
def add_children (acc : Dict) : List (Option FS) → Bool → Nat → Option Dict
  | [], _, _ => some acc
  | none :: rest, r, l => add_children acc rest r l
  | some t :: rest, r, l =>
    match add_to_dict t r l with
    | none => none
    | some sub => add_children (hmExtend acc sub) rest r l

end

mutual

/-- The scan reaches no panic: every directory it enters is readable and
every successfully hashed file it stores has a path of length at least
two. -/
def scan_ok : FS → Bool → Nat → Bool
  | .file p hr, _, _ => hr.isNone || decide (2 ≤ p.length)
  | .dir _ readOk children, r, l =>
    if r || l == 0 then readOk && scan_ok_children children r (l + 1) else true

def scan_ok_children : List (Option FS) → Bool → Nat → Bool
  | [], _, _ => true
  | none :: rest, r, l => scan_ok_children rest r l
  | some t :: rest, r, l => scan_ok t r l && scan_ok_children rest r l

end

mutual

/-- The files the scan reaches whose hash succeeds, with their raw
filesystem paths, in scan order. -/
def okFiles : FS → Bool → Nat → List (String × String)
  | .file p hr, _, _ => match hr with | some h => [(p, h)] | none => []
  | .dir _ _ children, r, l =>
    if r || l == 0 then okFilesChildren children r (l + 1) else []

def okFilesChildren : List (Option FS) → Bool → Nat → List (String × String)
  | [], _, _ => []
  | none :: rest, r, l => okFilesChildren rest r l
  | some t :: rest, r, l => okFiles t r l ++ okFilesChildren rest r l

end

/-- How a raw path becomes a stored manifest entry: the first two
characters are cut off (`&path[2..]`). -/
def dropEntry (q : String × String) : String × String := (q.1.drop 2, q.2)

theorem hmInsert_fresh {a : Dict} {k : String} (h : k ∉ a.map Prod.fst) (v : String) :
    hmInsert a k v = a ++ [(k, v)] := by
  unfold hmInsert
  congr 1
  apply List.filter_eq_self.mpr
  intro p hp
  simp only [bne_iff_ne, ne_eq]
  intro he
  exact h (List.mem_map.mpr ⟨p, hp, he⟩)

theorem hmExtend_fresh : ∀ {b a : Dict}, ((a ++ b).map Prod.fst).Nodup →
    hmExtend a b = a ++ b := by
  intro b
  induction b with
  | nil => intro a _; simp [hmExtend]
  | cons kv rest ih =>
    intro a hnd
    have hfresh : kv.1 ∉ a.map Prod.fst := by
      rw [List.map_append, List.nodup_append] at hnd
      intro hk
      exact hnd.2.2 hk (by simp)
    have step : hmExtend a (kv :: rest) = hmExtend (hmInsert a kv.1 kv.2) rest := rfl
    rw [step, hmInsert_fresh hfresh]
    have hnd' : (((a ++ [(kv.1, kv.2)]) ++ rest).map Prod.fst).Nodup := by
      simpa [List.append_assoc] using hnd
    rw [ih hnd']
    simp

mutual

theorem add_to_dict_eq_okFiles : ∀ (t : FS) (r : Bool) (l : Nat),
    scan_ok t r l = true →
    (((okFiles t r l).map dropEntry).map Prod.fst).Nodup →
    add_to_dict t r l = some ((okFiles t r l).map dropEntry)
  | .file p hr, r, l, hok, _ => by
    cases hr with
    | some h =>
      simp only [scan_ok, Option.isNone_some, Bool.false_or, decide_eq_true_eq] at hok
      simp [add_to_dict, okFiles, dropEntry, Nat.not_lt.mpr hok]
    | none => simp [add_to_dict, okFiles]
  | .dir p ok cs, r, l, hok, hnd => by
    by_cases hc : (r || l == 0) = true
    · simp only [scan_ok, hc, if_true, Bool.and_eq_true] at hok
      have hch := add_children_eq_okFiles [] cs r (l + 1) hok.2
        (by simpa [okFiles, hc] using hnd)
      simp only [add_to_dict, hc, if_true, hok.1, okFiles]
      simpa using hch
    · simp only [add_to_dict, hc, if_false, okFiles]
      simp

theorem add_children_eq_okFiles : ∀ (acc : Dict) (cs : List (Option FS)) (r : Bool) (l : Nat),
    scan_ok_children cs r l = true →
    ((acc ++ (okFilesChildren cs r l).map dropEntry).map Prod.fst).Nodup →
    add_children acc cs r l = some (acc ++ (okFilesChildren cs r l).map dropEntry)
  | acc, [], r, l, _, _ => by simp [add_children, okFilesChildren]
  | acc, none :: rest, r, l, hok, hnd => by
    simp only [scan_ok_children] at hok
    simpa [add_children, okFilesChildren] using
      add_children_eq_okFiles acc rest r l hok hnd
  | acc, some t :: rest, r, l, hok, hnd => by
    simp only [scan_ok_children, Bool.and_eq_true] at hok
    have hkeys : ((acc.map Prod.fst)
        ++ (((okFiles t r l).map dropEntry).map Prod.fst
            ++ ((okFilesChildren rest r l).map dropEntry).map Prod.fst)).Nodup := by
      simpa [okFilesChildren, List.map_append, List.append_assoc] using hnd
    rw [List.nodup_append] at hkeys
    obtain ⟨hA, hBC, hdisjA⟩ := hkeys
    have hB := (List.nodup_append.mp hBC).1
    have hsub := add_to_dict_eq_okFiles t r l hok.1 hB
    have hnd2 : ((acc ++ (okFiles t r l).map dropEntry).map Prod.fst).Nodup := by
      rw [List.map_append, List.nodup_append]
      refine ⟨hA, hB, ?_⟩
      intro x hx hx'
      exact hdisjA hx (List.mem_append_left _ hx')
    have hext : hmExtend acc ((okFiles t r l).map dropEntry)
        = acc ++ (okFiles t r l).map dropEntry := hmExtend_fresh hnd2
    have hrec := add_children_eq_okFiles (acc ++ (okFiles t r l).map dropEntry) rest r l
      hok.2 (by
        simp only [List.map_append, List.append_assoc]
        rw [List.nodup_append]
        exact ⟨hA, hBC, hdisjA⟩)
    show (match add_to_dict t r l with
      | none => none
      | some sub => add_children (hmExtend acc sub) rest r l)
      = some (acc ++ (okFilesChildren (some t :: rest) r l).map dropEntry)
    rw [hsub]
    simp only [hext, hrec, okFilesChildren, List.map_append, List.append_assoc]

end

/-- The depth-1 files of a directory's entry list whose hash succeeds. -/
def depth1Files (cs : List (Option FS)) : List (String × String) :=
  cs.filterMap (fun c => match c with
    | some (.file q (some h)) => some (q, h)
    | _ => none)

mutual

/-- Every file node anywhere in the tree whose hash succeeds, with its
raw path. -/
def allOkFiles : FS → List (String × String)
  | .file p hr => match hr with | some h => [(p, h)] | none => []
  | .dir _ _ cs => allOkFilesChildren cs

def allOkFilesChildren : List (Option FS) → List (String × String)
  | [] => []
  | none :: rest => allOkFilesChildren rest
  | some t :: rest => allOkFiles t ++ allOkFilesChildren rest

end

theorem okFilesChildren_nonrec (cs : List (Option FS)) :
    okFilesChildren cs false 1 = depth1Files cs := by
  induction cs with
  | nil => rfl
  | cons c rest ih =>
    cases c with
    | none => simpa [okFilesChildren, depth1Files] using ih
    | some t =>
      cases t with
      | file q hr =>
        cases hr with
        | some h => simp [okFilesChildren, depth1Files, okFiles, ih]
        | none => simp [okFilesChildren, depth1Files, okFiles, ih]
      | dir q ok cs' =>
        simp [okFilesChildren, depth1Files, okFiles, ih]

mutual

theorem okFiles_rec : ∀ (t : FS) (l : Nat), okFiles t true l = allOkFiles t
  | .file p hr, _ => by cases hr <;> simp [okFiles, allOkFiles]
  | .dir p ok cs, l => by
    simp [okFiles, allOkFiles, okFilesChildren_rec cs (l + 1)]

theorem okFilesChildren_rec : ∀ (cs : List (Option FS)) (l : Nat),
    okFilesChildren cs true l = allOkFilesChildren cs
  | [], _ => rfl
  | none :: rest, l => by
    simpa [okFilesChildren, allOkFilesChildren] using okFilesChildren_rec rest l
  | some t :: rest, l => by
    simp [okFilesChildren, allOkFilesChildren, okFiles_rec t l,
      okFilesChildren_rec rest l]

end

theorem depth1Files_sublist (cs : List (Option FS)) :
    (depth1Files cs).Sublist (allOkFilesChildren cs) := by
  induction cs with
  | nil => simp [depth1Files, allOkFilesChildren]
  | cons c rest ih =>
    cases c with
    | none => simpa [depth1Files, allOkFilesChildren] using ih
    | some t =>
      cases t with
      | file q hr =>
        cases hr with
        | some h =>
          simpa [depth1Files, allOkFilesChildren, allOkFiles] using ih.cons₂ (q, h)
        | none => simpa [depth1Files, allOkFilesChildren, allOkFiles] using ih
      | dir q ok cs' =>
        simp only [depth1Files, List.filterMap_cons, allOkFilesChildren]
        exact ih.trans (List.sublist_append_right _ _)

mutual

theorem okFiles_path_length : ∀ (t : FS) (r : Bool) (l : Nat),
    scan_ok t r l = true → ∀ q h, (q, h) ∈ okFiles t r l → 2 ≤ q.length
  | .file p hr, r, l, hok, q, h => by
    cases hr with
    | some h' =>
      simp only [scan_ok, Option.isNone_some, Bool.false_or, decide_eq_true_eq] at hok
      intro hmem
      simp only [okFiles, List.mem_singleton, Prod.mk.injEq] at hmem
      rw [← hmem.1] at hok
      exact hok
    | none => intro hmem; simp [okFiles] at hmem
  | .dir p ok cs, r, l, hok, q, h => by
    by_cases hc : (r || l == 0) = true
    · simp only [scan_ok, hc, if_true, Bool.and_eq_true] at hok
      intro hmem
      simp only [okFiles, hc, if_true] at hmem
      exact okFilesChildren_path_length cs r (l + 1) hok.2 q h hmem
    · intro hmem
      simp [okFiles, hc] at hmem

theorem okFilesChildren_path_length : ∀ (cs : List (Option FS)) (r : Bool) (l : Nat),
    scan_ok_children cs r l = true → ∀ q h, (q, h) ∈ okFilesChildren cs r l → 2 ≤ q.length
  | [], _, _, _, q, h => by intro hmem; simp [okFilesChildren] at hmem
  | none :: rest, r, l, hok, q, h => by
    simp only [scan_ok_children] at hok
    simp only [okFilesChildren]
    exact okFilesChildren_path_length rest r l hok q h
  | some t :: rest, r, l, hok, q, h => by
    simp only [scan_ok_children, Bool.and_eq_true] at hok
    simp only [okFilesChildren, List.mem_append]
    intro hmem
    rcases hmem with hm | hm
    · exact okFiles_path_length t r l hok.1 q h hm
    · exact okFilesChildren_path_length rest r l hok.2 q h hm

end

/-- C2: with a readable root directory, the non-recursive build succeeds
and its entries are exactly those of the depth-1 files that hash
successfully — subdirectory contents are absent, and subdirectories are
skipped, not read (the non-recursive `scan_ok` hypothesis constrains
only the root and its immediate file children, so unreadable
subdirectories are fine); the recursive build of the same directory also
succeeds, has an entry for every descendant file that hashes
successfully, and contains every entry of the non-recursive build (it is
a superset: the non-recursive entry list is a sublist of the recursive
one).  Hypotheses: neither scan panics and the recursive build's stored
keys are distinct, as on a real filesystem where distinct files have
distinct paths. -/
theorem build_nonrecursive_recursive (p : String) (cs : List (Option FS))
    (hok1 : scan_ok (FS.dir p true cs) false 0 = true)
    (hok2 : scan_ok (FS.dir p true cs) true 0 = true)
    (hnd : (((allOkFiles (FS.dir p true cs)).map dropEntry).map Prod.fst).Nodup) :
    ∃ d D, add_to_dict (FS.dir p true cs) false 0 = some d
      ∧ add_to_dict (FS.dir p true cs) true 0 = some D
      ∧ d = (depth1Files cs).map dropEntry
      ∧ D = (allOkFiles (FS.dir p true cs)).map dropEntry
      ∧ d.Sublist D := by
  have hchar1 : okFiles (FS.dir p true cs) false 0 = depth1Files cs := by
    simp [okFiles, okFilesChildren_nonrec]
  have hchar2 : okFiles (FS.dir p true cs) true 0 = allOkFiles (FS.dir p true cs) :=
    okFiles_rec _ 0
  have hsubl : (depth1Files cs).Sublist (allOkFiles (FS.dir p true cs)) := by
    simpa [allOkFiles] using depth1Files_sublist cs
  have hnd2 : (((okFiles (FS.dir p true cs) true 0).map dropEntry).map Prod.fst).Nodup := by
    rw [hchar2]; exact hnd
  have hnd1 : (((okFiles (FS.dir p true cs) false 0).map dropEntry).map Prod.fst).Nodup := by
    rw [hchar1]
    exact ((hsubl.map dropEntry).map Prod.fst).nodup hnd
  refine ⟨_, _, add_to_dict_eq_okFiles _ false 0 hok1 hnd1,
    add_to_dict_eq_okFiles _ true 0 hok2 hnd2, ?_, ?_, ?_⟩
  · rw [hchar1]
  · rw [hchar2]
  · rw [hchar1, hchar2]
    exact hsubl.map dropEntry

/-- Witness for `build_nonrecursive_recursive` at a concrete
two-level tree. -/
theorem build_nonrecursive_recursive_witness :
    ∃ d D, add_to_dict (FS.dir "./d" true
        [some (FS.file "./d/a.txt" (some "h1")),
         some (FS.dir "./d/sub" true [some (FS.file "./d/sub/b.txt" (some "h2"))])])
        false 0 = some d
      ∧ add_to_dict (FS.dir "./d" true
        [some (FS.file "./d/a.txt" (some "h1")),
         some (FS.dir "./d/sub" true [some (FS.file "./d/sub/b.txt" (some "h2"))])])
        true 0 = some D
      ∧ d = (depth1Files
        [some (FS.file "./d/a.txt" (some "h1")),
         some (FS.dir "./d/sub" true [some (FS.file "./d/sub/b.txt" (some "h2"))])]).map dropEntry
      ∧ D = (allOkFiles (FS.dir "./d" true
        [some (FS.file "./d/a.txt" (some "h1")),
         some (FS.dir "./d/sub" true [some (FS.file "./d/sub/b.txt" (some "h2"))])])).map dropEntry
      ∧ d.Sublist D :=
  build_nonrecursive_recursive "./d"
    [some (FS.file "./d/a.txt" (some "h1")),
     some (FS.dir "./d/sub" true [some (FS.file "./d/sub/b.txt" (some "h2"))])]
    (by decide) (by decide) (by decide)

/-- C3 counterexample: the builder stores the first-two-characters-cut
path, not the root-relative path with leading separators stripped.  For
a root written `dir` containing the file `dir/f.txt`, the filesystem
path is `dir/f.txt` (no leading separator to strip, and `f.txt` relative
to the root), yet the stored key is `r/f.txt`. -/
theorem builder_key_counterexample :
    add_to_dict (FS.dir "dir" true [some (FS.file "dir/f.txt" (some "h1"))]) false 0
        = some [("r/f.txt", "h1")]
    ∧ "r/f.txt" ≠ "f.txt" ∧ "r/f.txt" ≠ "dir/f.txt" := by
  refine ⟨by rfl, by decide, by decide⟩

/-- C3 amended: every key stored by the builder is a reached file's raw
filesystem path with its first two characters removed (the `[2..]`
slice) — which equals stripping a leading `./` only when the path
actually begins with `./`, i.e. when the root was written that way.  The
path is at least two characters long (shorter ones make the slice
panic). -/
theorem builder_key_is_slice (t : FS) (r : Bool) (l : Nat)
    (hok : scan_ok t r l = true)
    (hnd : (((okFiles t r l).map dropEntry).map Prod.fst).Nodup)
    (d : Dict) (hd : add_to_dict t r l = some d) :
    ∀ k v, (k, v) ∈ d →
      ∃ q, (q, v) ∈ okFiles t r l ∧ k = q.drop 2 ∧ 2 ≤ q.length := by
  intro k v hmem
  rw [add_to_dict_eq_okFiles t r l hok hnd] at hd
  injection hd with hd
  rw [← hd] at hmem
  rcases List.mem_map.mp hmem with ⟨⟨q, v'⟩, hq, he⟩
  have he1 : q.drop 2 = k := congrArg Prod.fst he
  have he2 : v' = v := congrArg Prod.snd he
  exact ⟨q, he2 ▸ hq, he1.symm, okFiles_path_length t r l hok q v' hq⟩

/-- Witness for `builder_key_is_slice` at a concrete tree and entry. -/
theorem builder_key_is_slice_witness :
    ∃ q, (q, "h1") ∈ okFiles (FS.dir "./d" true [some (FS.file "./d/a.txt" (some "h1"))]) false 0
      ∧ "d/a.txt" = q.drop 2 ∧ 2 ≤ q.length :=
  builder_key_is_slice (FS.dir "./d" true [some (FS.file "./d/a.txt" (some "h1"))])
    false 0 (by decide) (by decide) [("d/a.txt", "h1")] (by rfl) "d/a.txt" "h1" (by decide)

/-- C4 counterexample: a recursive build whose root is readable but which
contains an unreadable subdirectory does not skip the subdirectory — it
panics (`read_dir(path).unwrap()` runs at every level), modelled as
`none`. -/
theorem build_unreadable_subdir_counterexample :
    add_to_dict (FS.dir "./d" true [some (FS.dir "./d/sub" false [])]) true 0 = none := by
  rfl

mutual

theorem add_to_dict_isSome : ∀ (t : FS) (r : Bool) (l : Nat),
    scan_ok t r l = true → (add_to_dict t r l).isSome = true
  | .file p hr, r, l, hok => by
    cases hr with
    | some h =>
      simp only [scan_ok, Option.isNone_some, Bool.false_or, decide_eq_true_eq] at hok
      simp [add_to_dict, Nat.not_lt.mpr hok]
    | none => simp [add_to_dict]
  | .dir p ok cs, r, l, hok => by
    by_cases hc : (r || l == 0) = true
    · simp only [scan_ok, hc, if_true, Bool.and_eq_true] at hok
      simp only [add_to_dict, hc, if_true, hok.1]
      exact add_children_isSome [] cs r (l + 1) hok.2
    · simp [add_to_dict, hc]

theorem add_children_isSome : ∀ (acc : Dict) (cs : List (Option FS)) (r : Bool) (l : Nat),
    scan_ok_children cs r l = true → (add_children acc cs r l).isSome = true
  | _, [], _, _, _ => by simp [add_children]
  | acc, none :: rest, r, l, hok => by
    simp only [scan_ok_children] at hok
    simpa [add_children] using add_children_isSome acc rest r l hok
  | acc, some t :: rest, r, l, hok => by
    simp only [scan_ok_children, Bool.and_eq_true] at hok
    have h1 := add_to_dict_isSome t r l hok.1
    rcases Option.isSome_iff_exists.mp h1 with ⟨sub, hsub⟩
    show (match add_to_dict t r l with
      | none => none
      | some sub => add_children (hmExtend acc sub) rest r l).isSome = true
    rw [hsub]
    exact add_children_isSome (hmExtend acc sub) rest r l hok.2

end

/-- C4 amended: per-entry failures on files (unreadable file, hashing
failure) and on directory-iterator entries are skipped with a diagnostic
while the scan continues, but failing to read any directory the scan
enters — the root or, in a recursive scan, a subdirectory — is a hard
failure, as is storing a path shorter than two characters.  `scan_ok`
states exactly the absence of those two hard-failure sources and allows
arbitrary file-level failures. -/
theorem build_total_under_scan_ok (t : FS) (r : Bool) (l : Nat)
    (hok : scan_ok t r l = true) : (add_to_dict t r l).isSome = true := by
  have h := add_to_dict_isSome t r l hok
  exact h

/-- Witness for `build_total_under_scan_ok`: the build succeeds on a tree
containing a failed directory entry, a file whose hash fails and an
unreadable subdirectory that the non-recursive scan never enters. -/
theorem build_total_under_scan_ok_witness :
    (add_to_dict (FS.dir "./d" true
      [none, some (FS.file "./d/bad" none),
       some (FS.dir "./d/sub" false []),
       some (FS.file "./d/ok.txt" (some "h"))]) false 0).isSome = true :=
  build_total_under_scan_ok (FS.dir "./d" true
      [none, some (FS.file "./d/bad" none),
       some (FS.dir "./d/sub" false []),
       some (FS.file "./d/ok.txt" (some "h"))]) false 0 (by decide)

/-! ## `compress_files` (src/main.rs lines 320–371)

```rust
fn compress_files(paths: &Vec<String>) -> Result<Vec<u8>, ()> {
    let bytes = Cursor::new(Vec::new());
    let writer = BufWriter::new(bytes);
    let mut zip = ZipWriter::new(writer);
    let options = SimpleFileOptions::default()...;
    for path in paths {
        if let Err(e) = zip.start_file(path.clone(), options) {
            eprintln!(...); continue;
        }
        let file = File::open(&path);
        match file {
            Ok(file) => {
                let mut buffer: Vec<u8> = Vec::new();
                if let Err(e) = io::copy(&mut file.take(u64::MAX), &mut buffer) {
                    eprintln!(...); continue;
                }
                if let Err(e) = zip.write_all(&buffer) {
                    eprintln!(...); continue;
                }
            },
            Err(e) => { eprintln!(...); continue; }
        }
    }
    match zip.finish() {
        Ok(writer) => match writer.into_inner() {
            Ok(cursor) => Ok(cursor.into_inner()),
            Err(e) => { eprintln!(...); Err(()) }
        },
        Err(e) => { eprintln!(...); Err(()) }
    }
}
```

The zip container is modelled at the entry level: a list of
`(name, content)` pairs in the order the entries were started.
`zip.start_file` appends an empty entry named by the path (its outcome
comes from the external zip library, exposed as the `startFails`
oracle); a successful read then fills the entry's content.  `File::open`
failure and read failure behave identically here (in both the buffered
content never reaches the zip, and the loop continues), so both are
modelled by `fs path = none`.  Writes into the in-memory buffer are
modelled as succeeding.  `zip.finish()` and `writer.into_inner()` are
external-library finalization steps, exposed as the `finishOk` /
`intoInnerOk` oracles; the `Err` “no blob” outcome is `Except.error ()`,
exactly the source's `Result<Vec<u8>, ()>`. -/

structure ZipEnv where
  fs : String → Option String
  startFails : String → Bool
  finishOk : Bool
  intoInnerOk : Bool

/-- The `for path in paths` loop, with the zip's entry list as
accumulator. -/
def zipLoop (env : ZipEnv) : List String → List (String × String) → List (String × String)
  | [], acc => acc
  | p :: rest, acc =>
    if env.startFails p then zipLoop env rest acc
    else match env.fs p with
      | none => zipLoop env rest (acc ++ [(p, "")])
      | some c => zipLoop env rest (acc ++ [(p, c)])

/-- The archiver. -/
def compress_files (env : ZipEnv) (paths : List String) :
    Except Unit (List (String × String)) :=
  let entries := zipLoop env paths []
  if env.finishOk then
    if env.intoInnerOk then .ok entries else .error ()
  else .error ()

/-- The entries the loop leaves in the container: none for a path whose
`start_file` fails, an empty entry for a path whose open/read fails after
the header was started, a full entry otherwise. -/
def entriesOf (env : ZipEnv) (paths : List String) : List (String × String) :=
  paths.filterMap (fun p =>
    if env.startFails p then none
    else some (p, (env.fs p).getD ""))

theorem zipLoop_eq (env : ZipEnv) :
    ∀ (paths : List String) (acc : List (String × String)),
      zipLoop env paths acc = acc ++ entriesOf env paths := by
  intro paths
  induction paths with
  | nil => intro acc; simp [zipLoop, entriesOf]
  | cons p rest ih =>
    intro acc
    by_cases hs : env.startFails p = true
    · simp [zipLoop, entriesOf, hs, ih]
    · have hs' : env.startFails p = false := Bool.eq_false_iff.mpr hs
      cases hc : env.fs p with
      | none => simp [zipLoop, entriesOf, hs', hc, ih]
      | some c => simp [zipLoop, entriesOf, hs', hc, ih]

/-- C5 counterexample: archiving a missing path does not fail, but the
skipped entry does contribute to the container — `start_file` has
already appended an entry header, so the blob holds an empty entry named
by the missing path, rather than nothing. -/
theorem archive_missing_path_counterexample :
    compress_files ⟨fun _ => none, fun _ => false, true, true⟩ ["missing"]
        = .ok [("missing", "")]
    ∧ Except.ok [("missing", "")] ≠ (.ok ([] : List (String × String)) : Except Unit _) := by
  refine ⟨by rfl, by simp⟩

/-- C5 amended: a per-path failure (open or read) is non-fatal — the
path's content is skipped with a diagnostic and archiving continues with
the remaining paths — but such a path still contributes an empty entry
named by it to the container whenever its `start_file` call had already
succeeded; only a path whose `start_file` itself fails contributes
nothing.  With finalization succeeding, the result is exactly
`entriesOf`: every path in order, minus `start_file` failures, with
empty content for unreadable files. -/
theorem archive_per_path_failure_nonfatal (env : ZipEnv) (paths : List String)
    (hf : env.finishOk = true) (hi : env.intoInnerOk = true) :
    compress_files env paths = .ok (entriesOf env paths) := by
  unfold compress_files
  rw [zipLoop_eq, hf, hi]
  simp

/-- Witness for `archive_per_path_failure_nonfatal`: one missing path,
one readable path. -/
theorem archive_per_path_failure_nonfatal_witness :
    compress_files
        ⟨fun p => if p = "good" then some "data" else none, fun _ => false, true, true⟩
        ["missing", "good"]
      = .ok (entriesOf
        ⟨fun p => if p = "good" then some "data" else none, fun _ => false, true, true⟩
        ["missing", "good"]) :=
  archive_per_path_failure_nonfatal
    ⟨fun p => if p = "good" then some "data" else none, fun _ => false, true, true⟩
    ["missing", "good"] rfl rfl

/-- C6: the archiver returns a blob exactly when both finalization steps
(`zip.finish()` and `writer.into_inner()`) succeed; on finalization
failure it returns the blob-free error `Err(())`; and with finalization
succeeding, an empty path sequence yields the empty container. -/
theorem archive_finalization (env : ZipEnv) (paths : List String) :
    ((∃ blob, compress_files env paths = .ok blob)
        ↔ env.finishOk = true ∧ env.intoInnerOk = true)
    ∧ (env.finishOk = false ∨ env.intoInnerOk = false →
        compress_files env paths = .error ())
    ∧ (env.finishOk = true → env.intoInnerOk = true →
        compress_files env [] = .ok []) := by
  refine ⟨?_, ?_, ?_⟩
  · constructor
    · rintro ⟨blob, hb⟩
      unfold compress_files at hb
      by_cases hf : env.finishOk = true
      · by_cases hi : env.intoInnerOk = true
        · exact ⟨hf, hi⟩
        · rw [hf, Bool.eq_false_iff.mpr hi] at hb; simp at hb
      · rw [Bool.eq_false_iff.mpr hf] at hb; simp at hb
    · rintro ⟨hf, hi⟩
      exact ⟨zipLoop env paths [], by unfold compress_files; rw [hf, hi]; simp⟩
  · intro h
    unfold compress_files
    rcases h with hf | hi
    · rw [hf]; simp
    · rw [hi]
      cases hf : env.finishOk <;> simp
  · intro hf hi
    unfold compress_files
    rw [hf, hi]
    simp [zipLoop]

/-- Witness for `archive_finalization` at a concrete environment. -/
theorem archive_finalization_witness :
    ((∃ blob, compress_files ⟨fun _ => none, fun _ => false, true, true⟩ ["x"]
        = .ok blob) ↔ (true = true ∧ true = true))
    ∧ compress_files ⟨fun _ => none, fun _ => false, true, true⟩ ([] : List String)
        = .ok [] :=
  ⟨(archive_finalization ⟨fun _ => none, fun _ => false, true, true⟩ ["x"]).1,
   (archive_finalization ⟨fun _ => none, fun _ => false, true, true⟩ []).2.2 rfl rfl⟩

/-! ## `read_dict` and `handle_connection` (src/main.rs lines 283–318, 373–401)

```rust
fn handle_connection(mut stream: TcpStream) {
    let buf_reader = BufReader::new(&mut stream);
    let client_dict_str = buf_reader
        .lines()
        .map(|result| result.unwrap())
        .take_while(|line| !line.is_empty())
        .collect::<Vec<String>>()
        .join("");
    let client_dict = serde_json::from_str::<Map<String, _>>(&client_dict_str);
    match client_dict {
        Ok(client_dict) => {
            let server_dict = read_dict("base.dict");
            match server_dict {
                Ok(server_dict) => {
                    let diffs = diff_dict(&client_dict, &server_dict);
                    let compressed = compress_files(&diffs);
                    if let Ok(compressed) = compressed {
                        stream.write_all(&compressed).unwrap();
                    }
                },
                Err(_) => { /* TODO: custom error system */ }
            }
        },
        Err(e) => { eprintln!("Error while reading client dict: {}", e); }
    }
}
```

The connection's inbound side is the line iterator: a list whose
elements are `some line` (a successfully read line) or `none` (an I/O
error, which `result.unwrap()` turns into a panic — lazily, so an error
after the blank-line sentinel is never reached).  serde JSON parsing is
the external boundary the spec excludes, passed in as the `parse`
oracle; `read_dict`'s file I/O outcome is `baseDictFile`, and the
response write outcome is `writeOk` (`write_all(..).unwrap()` panics on
failure).  The result records whether the handler panicked, the complete
response blob written (`none` = no complete response), and the
diagnostics emitted by `handle_connection` itself (those printed inside
`read_dict` / `compress_files` are their own). -/

/-- Outcome of `File::open` + `read_to_string` on the server manifest. -/
inductive FileRead where
  | openErr
  | readErr
  | ok (content : String)

/-- `read_dict` (lines 373–401): open and read the file, then parse it;
any failure is `Err(())` (each with its own diagnostic, emitted inside
`read_dict`). -/
def read_dict (parse : String → Except String Dict) (f : FileRead) : Except Unit Dict :=
  match f with
  | .openErr => .error ()
  | .readErr => .error ()
  | .ok content =>
    match parse content with
    | .ok dict => .ok dict
    | .error _ => .error ()

/-- External outcomes a connection handler runs against. -/
structure ServerEnv where
  parse : String → Except String Dict
  baseDictFile : FileRead
  zip : ZipEnv
  writeOk : Bool

/-- What one handler invocation did. -/
structure ConnResult where
  panicked : Bool
  written : Option (List (String × String))
  handlerDiags : List String

/-- `lines().map(unwrap).take_while(non-empty)`: read lines until the
blank-line sentinel or stream end; `none` (an `Err` line) panics, but
only if reached before the sentinel. -/
def collectLines : List (Option String) → Option (List String)
  | [] => some []
  | none :: _ => none
  | some l :: rest => if l.isEmpty then some [] else (collectLines rest).map (l :: ·)

/-- The per-connection handler. -/
def handle_connection (env : ServerEnv) (input : List (Option String)) : ConnResult :=
  match collectLines input with
  | none => ⟨true, none, []⟩
  | some ls =>
    match env.parse (String.join ls) with
    | .error e => ⟨false, none, ["Error while reading client dict: " ++ e]⟩
    | .ok client_dict =>
      match read_dict env.parse env.baseDictFile with
      | .error _ => ⟨false, none, []⟩
      | .ok server_dict =>
        match compress_files env.zip (diff_dict client_dict server_dict) with
        | .error _ => ⟨false, none, []⟩
        | .ok compressed =>
          if env.writeOk then ⟨false, some compressed, []⟩
          else ⟨true, none, []⟩

/-- C7: when the received manifest text parses with an error, the handler
writes no response bytes, does not panic (the connection is closed by
returning), and emits exactly the one diagnostic; the parsed-manifest
stages are never reached. -/
theorem parse_failure_drops_connection (env : ServerEnv) (input : List (Option String))
    (ls : List String) (hread : collectLines input = some ls)
    (e : String) (hparse : env.parse (String.join ls) = .error e) :
    handle_connection env input
      = ⟨false, none, ["Error while reading client dict: " ++ e]⟩ := by
  unfold handle_connection
  simp only [hread, hparse]

/-- Witness for `parse_failure_drops_connection` at a concrete
connection. -/
theorem parse_failure_drops_connection_witness :
    handle_connection
      ⟨fun _ => .error "invalid", .openErr,
        ⟨fun _ => none, fun _ => false, true, true⟩, true⟩
      [some "notjson", some ""]
      = ⟨false, none, ["Error while reading client dict: " ++ "invalid"]⟩ :=
  parse_failure_drops_connection
    ⟨fun _ => .error "invalid", .openErr,
      ⟨fun _ => none, fun _ => false, true, true⟩, true⟩
    [some "notjson", some ""] ["notjson"] rfl "invalid" rfl

/-- C8 counterexample: a failed read of a manifest line does not merely
abort the current request — `.map(|result| result.unwrap())` panics the
handler (and with it the executing worker thread), contradicting the
claim's "no panic in the handler". -/
theorem transport_error_counterexample :
    handle_connection
      ⟨fun _ => .error "x", .openErr,
        ⟨fun _ => none, fun _ => false, true, true⟩, true⟩
      [none]
      = ⟨true, none, []⟩ := by
  rfl

/-- C8 amended: a transport error — a failed read of a manifest line
before the sentinel, or a failed write of the response — aborts only the
current connection, with no retry and no complete response, but it does
so by a panic inside the handler (`unwrap` on the line read / on
`write_all`), which terminates the worker thread executing the job; the
panic does not cross thread boundaries, so the server process and the
other workers continue. -/
theorem transport_error_panics (env : ServerEnv) (input : List (Option String)) :
    (collectLines input = none → handle_connection env input = ⟨true, none, []⟩)
    ∧ (∀ ls cd sd blob,
        collectLines input = some ls →
        env.parse (String.join ls) = .ok cd →
        read_dict env.parse env.baseDictFile = .ok sd →
        compress_files env.zip (diff_dict cd sd) = .ok blob →
        env.writeOk = false →
        handle_connection env input = ⟨true, none, []⟩) := by
  constructor
  · intro h
    unfold handle_connection
    rw [h]
  · intro ls cd sd blob hread hparse hbase hcomp hw
    unfold handle_connection
    simp only [hread, hparse, hbase, hcomp]
    simp [hw]

/-- Witness for `transport_error_panics`: a read error mid-manifest, and
a write failure after a successful pipeline, each panic the handler. -/
theorem transport_error_panics_witness :
    handle_connection
      ⟨fun _ => .error "x", .openErr,
        ⟨fun _ => none, fun _ => false, true, true⟩, true⟩
      [some "m", none]
      = ⟨true, none, []⟩
    ∧ handle_connection
      ⟨fun _ => .ok [], .ok "x",
        ⟨fun _ => none, fun _ => false, true, true⟩, false⟩
      [some "m", some ""]
      = ⟨true, none, []⟩ :=
  ⟨(transport_error_panics
      ⟨fun _ => .error "x", .openErr,
        ⟨fun _ => none, fun _ => false, true, true⟩, true⟩
      [some "m", none]).1 rfl,
   (transport_error_panics
      ⟨fun _ => .ok [], .ok "x",
        ⟨fun _ => none, fun _ => false, true, true⟩, false⟩
      [some "m", some ""]).2 ["m"] [] [] [] rfl rfl rfl rfl rfl⟩

/-- C10: when the client manifest parses but the server-side manifest
(`base.dict`) cannot be opened, read or parsed, the handler returns with
zero response bytes written, no panic, and — unlike the
client-parse-failure branch — no diagnostic of its own (the `Err(_)`
arm is an empty `TODO` block; `read_dict` prints its diagnostics
internally). -/
theorem base_dict_failure_silent (env : ServerEnv) (input : List (Option String))
    (ls : List String) (hread : collectLines input = some ls)
    (cd : Dict) (hparse : env.parse (String.join ls) = .ok cd)
    (hbase : read_dict env.parse env.baseDictFile = .error ()) :
    handle_connection env input = ⟨false, none, []⟩ := by
  unfold handle_connection
  simp only [hread, hparse, hbase]

/-- Witness for `base_dict_failure_silent`: the server manifest file
fails to open. -/
theorem base_dict_failure_silent_witness :
    handle_connection
      ⟨fun _ => .ok [], .openErr,
        ⟨fun _ => none, fun _ => false, true, true⟩, true⟩
      [some "m", some ""]
      = ⟨false, none, []⟩ :=
  base_dict_failure_silent
    ⟨fun _ => .ok [], .openErr,
      ⟨fun _ => none, fun _ => false, true, true⟩, true⟩
    [some "m", some ""] ["m"] rfl [] rfl rfl

/-! ## `ThreadPool` / `Worker` (src/main.rs lines 45–116)

```rust
impl Worker {
    fn new(id: usize, receiver: Arc<Mutex<mpsc::Receiver<Job>>>) -> Worker {
        Worker { id, thread: Some(thread::spawn(move || loop {
            let message = receiver.lock().unwrap().recv();
            match message {
                Ok(job) => { println!("Worker {id} got a job; executing..."); job(); },
                Err(_) => { println!("Worker {id} disconnected; shutting down..."); break; }
            }
        })) }
    }
}
impl ThreadPool {
    fn new(size: usize) -> ThreadPool {
        assert!(size > 0);
        let (sender, receiver) = mpsc::channel();
        ...
    }
    fn execute<F>(&self, f: F) { ... self.sender.as_ref().unwrap().send(job).unwrap(); }
}
impl Drop for ThreadPool {
    fn drop(&mut self) {
        drop(self.sender.take());
        for worker in &mut self.workers {
            if let Some(thread) = worker.thread.take() { thread.join().unwrap(); }
        }
    }
}
```

The pool of `N` workers sharing one mutex-guarded FIFO `mpsc` channel is
modelled as a labelled transition system over all interleavings.  A
state records whether the sender is still alive (`queueOpen`), the
queued jobs in FIFO order, which worker is running which job (`busy`),
which workers have observed the closed-and-drained channel and exited
their loop (`exited`), the completed executions in completion order
(`done`), and the submission history (`submitted`).  One `recv` under
the mutex is atomic: an idle worker takes the queue head.  `close` is
`drop(self.sender.take())` in `Drop`; a worker's `recv` returns `Err`
(and the worker exits) only once the channel is closed and empty.  Jobs
are modelled as values that run to completion, as in the source's
`job()` call.  The post-shutdown states are those where every worker id
below `N` has exited — `Drop`'s `join` loop returns exactly then. -/

structure PoolState (J : Type) where
  queueOpen : Bool
  queue : List J
  busy : List (Nat × J)
  exited : List Nat
  done : List (Nat × J)
  submitted : List J

/-- The state right after `ThreadPool::new`. -/
def initPool (J : Type) : PoolState J := ⟨true, [], [], [], [], []⟩

/-- One atomic event of the pool. -/
inductive PoolStep {J : Type} (N : Nat) : PoolState J → PoolState J → Prop
  | submit (s : PoolState J) (j : J) (h : s.queueOpen = true) :
      PoolStep N s { s with queue := s.queue ++ [j], submitted := s.submitted ++ [j] }
  | recv (s : PoolState J) (w : Nat) (j : J) (rest : List J)
      (hw : w < N) (hbusy : w ∉ s.busy.map Prod.fst) (hex : w ∉ s.exited)
      (hq : s.queue = j :: rest) :
      PoolStep N s { s with queue := rest, busy := s.busy ++ [(w, j)] }
  | finish (s : PoolState J) (w : Nat) (j : J) (b1 b2 : List (Nat × J))
      (hb : s.busy = b1 ++ (w, j) :: b2) :
      PoolStep N s { s with busy := b1 ++ b2, done := s.done ++ [(w, j)] }
  | close (s : PoolState J) :
      PoolStep N s { s with queueOpen := false }
  | exit (s : PoolState J) (w : Nat)
      (hw : w < N) (hbusy : w ∉ s.busy.map Prod.fst) (hex : w ∉ s.exited)
      (hclosed : s.queueOpen = false) (hq : s.queue = []) :
      PoolStep N s { s with exited := s.exited ++ [w] }

/-- States reachable from the fresh pool. -/
inductive Reachable {J : Type} (N : Nat) : PoolState J → Prop
  | init : Reachable N (initPool J)
  | step {s s' : PoolState J} : Reachable N s → PoolStep N s s' → Reachable N s'

/-- Finite executions between two states. -/
inductive Steps {J : Type} (N : Nat) : PoolState J → PoolState J → Prop
  | refl (s : PoolState J) : Steps N s s
  | head {s s' s'' : PoolState J} :
      PoolStep N s s' → Steps N s' s'' → Steps N s s''

theorem Steps.tail {J : Type} {N : Nat} {s s' s'' : PoolState J}
    (hs : Steps N s s') (h : PoolStep N s' s'') : Steps N s s'' := by
  induction hs with
  | refl s => exact Steps.head h (Steps.refl _)
  | head h1 _ ih => exact Steps.head h1 (ih h)

theorem Steps.trans {J : Type} {N : Nat} {s t u : PoolState J}
    (h1 : Steps N s t) (h2 : Steps N t u) : Steps N s u := by
  induction h1 with
  | refl s => exact h2
  | head hstep _ ih => exact Steps.head hstep (ih h2)

theorem Reachable.steps {J : Type} {N : Nat} {s s' : PoolState J}
    (hr : Reachable N s) (hs : Steps N s s') : Reachable N s' := by
  induction hs with
  | refl s => exact hr
  | head h1 _ ih => exact ih (Reachable.step hr h1)

/-- Every worker id below `N` has exited: the condition under which
`Drop`'s join loop (pool shutdown) returns. -/
def shutdownComplete {J : Type} (N : Nat) (s : PoolState J) : Prop :=
  ∀ w, w < N → w ∈ s.exited

/-- The inductive invariant of the pool. -/
structure PoolInv {J : Type} (N : Nat) (s : PoolState J) : Prop where
  perm : (s.submitted : Multiset J)
    = ↑s.queue + ↑(s.busy.map Prod.snd) + ↑(s.done.map Prod.snd)
  busy_lt : ∀ w ∈ s.busy.map Prod.fst, w < N
  busy_exited : ∀ w ∈ s.busy.map Prod.fst, w ∉ s.exited
  exited_closed : s.exited ≠ [] → s.queueOpen = false ∧ s.queue = []

theorem poolInv_init {J : Type} (N : Nat) : PoolInv N (initPool J) := by
  refine ⟨by simp [initPool], by simp [initPool], by simp [initPool], by simp [initPool]⟩

theorem poolInv_step {J : Type} {N : Nat} {s s' : PoolState J}
    (hinv : PoolInv N s) (hstep : PoolStep N s s') : PoolInv N s' := by
  cases hstep with
  | submit j h =>
    refine ⟨?_, hinv.busy_lt, hinv.busy_exited, ?_⟩
    · simp only [← Multiset.coe_add]
      rw [hinv.perm]
      abel
    · intro hne
      rcases hinv.exited_closed hne with ⟨hc, _⟩
      rw [h] at hc
      cases hc
  | recv w j rest hw hbusy hex hq =>
    refine ⟨?_, ?_, ?_, ?_⟩
    · have hp := hinv.perm
      rw [hq] at hp
      simp only [List.map_append, List.map_cons, List.map_nil, ← Multiset.coe_add,
        ← Multiset.cons_coe, ← Multiset.singleton_add] at hp ⊢
      rw [hp]
      abel
    · intro u hu
      simp only [List.map_append, List.map_cons, List.map_nil, List.mem_append,
        List.mem_singleton] at hu
      rcases hu with hu | hu
      · exact hinv.busy_lt u hu
      · rw [hu]; exact hw
    · intro u hu
      simp only [List.map_append, List.map_cons, List.map_nil, List.mem_append,
        List.mem_singleton] at hu
      rcases hu with hu | hu
      · exact hinv.busy_exited u hu
      · rw [hu]; exact hex
    · intro hne
      rcases hinv.exited_closed hne with ⟨_, hq0⟩
      rw [hq0] at hq
      cases hq
  | finish w j b1 b2 hb =>
    refine ⟨?_, ?_, ?_, hinv.exited_closed⟩
    · have hp := hinv.perm
      rw [hb] at hp
      simp only [List.map_append, List.map_cons, ← Multiset.coe_add,
        ← Multiset.cons_coe, ← Multiset.singleton_add] at hp ⊢
      rw [hp]
      abel
    · intro u hu
      refine hinv.busy_lt u ?_
      rw [hb]
      simp only [List.map_append, List.mem_append] at hu ⊢
      rcases hu with hu | hu
      · exact Or.inl hu
      · exact Or.inr (by simp [hu])
    · intro u hu
      refine hinv.busy_exited u ?_
      rw [hb]
      simp only [List.map_append, List.mem_append] at hu ⊢
      rcases hu with hu | hu
      · exact Or.inl hu
      · exact Or.inr (by simp [hu])
  | close =>
    refine ⟨hinv.perm, hinv.busy_lt, hinv.busy_exited, ?_⟩
    intro hne
    exact ⟨rfl, (hinv.exited_closed hne).2⟩
  | exit w hw hbusy hex hclosed hq =>
    refine ⟨hinv.perm, hinv.busy_lt, ?_, ?_⟩
    · intro u hu
      simp only [List.mem_append, List.mem_singleton]
      rintro (hin | he)
      · exact hinv.busy_exited u hu hin
      · rw [he] at hu
        exact hbusy hu
    · intro _
      exact ⟨hclosed, hq⟩

theorem poolInv_reachable {J : Type} {N : Nat} {s : PoolState J}
    (h : Reachable N s) : PoolInv N s := by
  induction h with
  | init => exact poolInv_init N
  | step _ hstep ih => exact poolInv_step ih hstep

theorem pool_completed_state {J : Type} {N : Nat} (hN : 0 < N) {s : PoolState J}
    (hreach : Reachable N s) (hdone : shutdownComplete N s) :
    s.queue = [] ∧ s.busy = [] ∧ (s.done.map Prod.snd).Perm s.submitted := by
  have hinv := poolInv_reachable hreach
  have hex0 : (0 : Nat) ∈ s.exited := hdone 0 hN
  have hne : s.exited ≠ [] := by
    intro h0
    rw [h0] at hex0
    cases hex0
  have hq : s.queue = [] := (hinv.exited_closed hne).2
  have hbusy : s.busy = [] := by
    cases hb : s.busy with
    | nil => rfl
    | cons p b =>
      have hp : p.1 ∈ s.busy.map Prod.fst := by rw [hb]; simp
      have hlt := hinv.busy_lt p.1 hp
      exact absurd (hdone p.1 hlt) (hinv.busy_exited p.1 hp)
  refine ⟨hq, hbusy, ?_⟩
  have hp := hinv.perm
  rw [hq, hbusy] at hp
  simp only [List.map_nil] at hp
  rw [← Multiset.coe_eq_coe]
  rw [hp]
  simp

theorem pool_drain_busy {J : Type} {N : Nat} :
    ∀ (n : Nat) (s : PoolState J), s.busy.length ≤ n →
      ∃ s', Steps N s s'
        ∧ s'.busy = [] ∧ s'.queue = s.queue ∧ s'.queueOpen = s.queueOpen
        ∧ s'.exited = s.exited ∧ s'.submitted = s.submitted := by
  intro n
  induction n with
  | zero =>
    intro s hlen
    have hb : s.busy = [] := List.length_eq_zero.mp (Nat.le_zero.mp hlen)
    exact ⟨s, Steps.refl s, hb, rfl, rfl, rfl, rfl⟩
  | succ n ih =>
    intro s hlen
    cases hb : s.busy with
    | nil => exact ⟨s, Steps.refl s, hb, rfl, rfl, rfl, rfl⟩
    | cons p b =>
      have hstep : PoolStep N s
          { s with
              busy := ([] : List (Nat × J)) ++ b,
              done := s.done ++ [(p.1, p.2)] } :=
        PoolStep.finish s p.1 p.2 [] b (by rw [hb]; simp)
      have hlen' : ({ s with
          busy := ([] : List (Nat × J)) ++ b,
          done := s.done ++ [(p.1, p.2)] } : PoolState J).busy.length ≤ n := by
        simp only [List.nil_append]
        have := hlen
        rw [hb] at this
        simpa using Nat.le_of_succ_le_succ this
      rcases ih _ hlen' with ⟨s', hsteps, h1, h2, h3, h4, h5⟩
      exact ⟨s', Steps.head hstep hsteps, h1, h2, h3, h4, h5⟩

theorem pool_drain_queue {J : Type} {N : Nat} (hN : 0 < N) :
    ∀ (n : Nat) (s : PoolState J), Reachable N s → s.queue.length ≤ n →
      s.busy = [] → s.queueOpen = false →
      ∃ s', Steps N s s'
        ∧ s'.busy = [] ∧ s'.queue = [] ∧ s'.queueOpen = false
        ∧ s'.exited = s.exited ∧ s'.submitted = s.submitted := by
  intro n
  induction n with
  | zero =>
    intro s _ hlen hb hc
    have hq : s.queue = [] := List.length_eq_zero.mp (Nat.le_zero.mp hlen)
    exact ⟨s, Steps.refl s, hb, hq, hc, rfl, rfl⟩
  | succ n ih =>
    intro s hreach hlen hb hc
    cases hq : s.queue with
    | nil => exact ⟨s, Steps.refl s, hb, hq, hc, rfl, rfl⟩
    | cons j rest =>
      have hinv := poolInv_reachable hreach
      have hex : s.exited = [] := by
        cases hx : s.exited with
        | nil => rfl
        | cons e es =>
          have := (hinv.exited_closed (by rw [hx]; simp)).2
          rw [this] at hq
          cases hq
      have hstep1 : PoolStep N s
          ({ s with queue := rest, busy := s.busy ++ [(0, j)] } : PoolState J) :=
        PoolStep.recv s 0 j rest hN (by rw [hb]; simp) (by rw [hex]; simp) hq
      have hstep2 : PoolStep N
          ({ s with queue := rest, busy := s.busy ++ [(0, j)] } : PoolState J)
          ({ s with
              queue := rest,
              busy := ([] : List (Nat × J)) ++ [],
              done := s.done ++ [(0, j)] } : PoolState J) :=
        PoolStep.finish
          ({ s with queue := rest, busy := s.busy ++ [(0, j)] } : PoolState J)
          0 j [] [] (by rw [hb])
      have hreach2 : Reachable N ({ s with
          queue := rest,
          busy := ([] : List (Nat × J)) ++ [],
          done := s.done ++ [(0, j)] } : PoolState J) :=
        Reachable.step (Reachable.step hreach hstep1) hstep2
      have hlen2 : ({ s with
          queue := rest,
          busy := ([] : List (Nat × J)) ++ [],
          done := s.done ++ [(0, j)] } : PoolState J).queue.length ≤ n := by
        have := hlen
        rw [hq] at this
        simpa using Nat.le_of_succ_le_succ this
      rcases ih _ hreach2 hlen2 (by simp) hc with ⟨s', hsteps, h1, h2, h3, h4, h5⟩
      refine ⟨s', Steps.head hstep1 (Steps.head hstep2 hsteps), h1, h2, h3, ?_, h5⟩
      simpa using h4

theorem pool_exit_upto {J : Type} {N : Nat} :
    ∀ (m : Nat), m ≤ N → ∀ (s : PoolState J),
      s.busy = [] → s.queue = [] → s.queueOpen = false →
      ∃ s', Steps N s s'
        ∧ s'.busy = [] ∧ s'.queue = [] ∧ s'.queueOpen = false
        ∧ (∀ w, w < m → w ∈ s'.exited)
        ∧ s'.done = s.done ∧ s'.submitted = s.submitted := by
  intro m
  induction m with
  | zero =>
    intro _ s hb hq hc
    exact ⟨s, Steps.refl s, hb, hq, hc,
      fun w hw => absurd hw (Nat.not_lt_zero w), rfl, rfl⟩
  | succ m ih =>
    intro hm s hb hq hc
    rcases ih (Nat.le_of_succ_le hm) s hb hq hc with
      ⟨t, hsteps, htb, htq, htc, hex, htd, hts⟩
    by_cases hmem : m ∈ t.exited
    · refine ⟨t, hsteps, htb, htq, htc, ?_, htd, hts⟩
      intro w hw
      rcases Nat.lt_succ_iff_lt_or_eq.mp hw with h | h
      · exact hex w h
      · rw [h]; exact hmem
    · have hstep : PoolStep N t { t with exited := t.exited ++ [m] } :=
        PoolStep.exit t m hm (by rw [htb]; simp) hmem htc htq
      refine ⟨{ t with exited := t.exited ++ [m] },
        hsteps.tail hstep, htb, htq, htc, ?_, htd, hts⟩
      intro w hw
      simp only [List.mem_append, List.mem_singleton]
      rcases Nat.lt_succ_iff_lt_or_eq.mp hw with h | h
      · exact Or.inl (hex w h)
      · exact Or.inr h

/-- C9: (safety) in any reachable state of an `N`-worker pool in which
every worker has exited — the condition on which pool shutdown's join
loop returns — the queue is drained, no job is in flight, and the
multiset of executed jobs is exactly the multiset of submitted jobs:
every submitted job, for any number `K` of submissions in any order
(including `K > N`), was executed exactly once, each execution by one
worker.  (progress) From any reachable state in which the queue has been
closed, the workers can finish the in-flight and queued jobs and exit,
reaching such a fully-exited state without any further submission being
possible. -/
theorem pool_jobs_exactly_once {J : Type} (N : Nat) (hN : 0 < N) (s : PoolState J)
    (hreach : Reachable N s) :
    (shutdownComplete N s →
      s.queue = [] ∧ s.busy = [] ∧ (s.done.map Prod.snd).Perm s.submitted)
    ∧ (s.queueOpen = false →
      ∃ s', Steps N s s' ∧ shutdownComplete N s'
        ∧ s'.submitted = s.submitted ∧ (s'.done.map Prod.snd).Perm s.submitted) := by
  constructor
  · intro hdone
    exact pool_completed_state hN hreach hdone
  · intro hclosed
    rcases pool_drain_busy (N := N) s.busy.length s le_rfl with
      ⟨t1, hs1, h1b, h1q, h1c, _, h1s⟩
    have hreach1 : Reachable N t1 := hreach.steps hs1
    rcases pool_drain_queue hN t1.queue.length t1 hreach1 le_rfl h1b
      (by rw [h1c]; exact hclosed) with ⟨t2, hs2, h2b, h2q, h2c, _, h2s⟩
    rcases pool_exit_upto N le_rfl t2 h2b h2q h2c with
      ⟨t3, hs3, _, _, _, h3ex, _, h3s⟩
    have hsteps : Steps N s t3 := (hs1.trans hs2).trans hs3
    have hreach3 : Reachable N t3 := hreach.steps hsteps
    have hdone3 : shutdownComplete N t3 := fun w hw => h3ex w hw
    have hsub : t3.submitted = s.submitted := by rw [h3s, h2s, h1s]
    have hperm := (pool_completed_state hN hreach3 hdone3).2.2
    rw [hsub] at hperm
    exact ⟨t3, hsteps, hdone3, hsub, hperm⟩

/-- Witness for `pool_jobs_exactly_once`: one worker, two jobs
(`K = 2 > N = 1`): submit both, close the queue, let the worker run both
and exit; the completed executions are exactly the submissions. -/
theorem pool_jobs_exactly_once_witness :
    (⟨false, [], [], [0], [(0, 10), (0, 20)], [10, 20]⟩ : PoolState Nat).queue = []
    ∧ (⟨false, [], [], [0], [(0, 10), (0, 20)], [10, 20]⟩ : PoolState Nat).busy = []
    ∧ ((⟨false, [], [], [0], [(0, 10), (0, 20)], [10, 20]⟩ : PoolState Nat).done.map
        Prod.snd).Perm
        (⟨false, [], [], [0], [(0, 10), (0, 20)], [10, 20]⟩ : PoolState Nat).submitted :=
  (pool_jobs_exactly_once 1 (by decide)
    (⟨false, [], [], [0], [(0, 10), (0, 20)], [10, 20]⟩ : PoolState Nat)
    (by
      have h0 : Reachable 1 (initPool Nat) := Reachable.init
      have h1 := Reachable.step h0 (PoolStep.submit _ 10 rfl)
      have h2 := Reachable.step h1 (PoolStep.submit _ 20 rfl)
      have h3 := Reachable.step h2 (PoolStep.close _)
      have h4 := Reachable.step h3
        (PoolStep.recv _ 0 10 [20] (by decide) (by decide) (by decide) rfl)
      have h5 := Reachable.step h4 (PoolStep.finish _ 0 10 [] [] rfl)
      have h6 := Reachable.step h5
        (PoolStep.recv _ 0 20 [] (by decide) (by decide) (by decide) rfl)
      have h7 := Reachable.step h6 (PoolStep.finish _ 0 20 [] [] rfl)
      have h8 := Reachable.step h7
        (PoolStep.exit _ 0 (by decide) (by decide) (by decide) rfl rfl)
      exact h8)).1 (by
    intro w hw
    have hw0 : w = 0 := Nat.lt_one_iff.mp hw
    rw [hw0]
    exact List.mem_singleton.mpr rfl)

end Laj3
